import Mathlib

/-!
Shallow embedding of the `wcstr` crate: owned wide strings (`WCString`),
borrowed views (`WCStr`), the error types, and the destructive splitting
iterator.  Code units (`u16`) are modelled as `Nat`; the only operations the
library performs on them are equality tests (against `0` or a delimiter), so
the 16-bit bound is tracked as an explicit hypothesis where it matters
(`Debug` rendering).  `Vec<u16>` becomes `List Nat`; Rust methods map to:
`iter().position(p)` ↦ `position`, `pop` ↦ `dropLast`, `truncate n` ↦
`take n`, `extend` ↦ `++`, `take_while` ↦ `takeWhile`.  Mutating methods
returning `Result` are modelled as functions returning the new buffer state
paired with an `Except` outcome, so that the failure path's buffer state is
observable.
-/

namespace Wcstr

/-- Rust's `slice::iter().position(p)`: index of the first element
satisfying `p`, if any. -/
def position (p : Nat → Bool) : List Nat → Option Nat
  | [] => none
  | x :: xs => if p x then some 0 else (position p xs).map (· + 1)

/-- `NulError(usize, Option<Vec<u16>>)` from `src/error.rs`. -/
structure NulError where
  pos : Nat
  buf : Option (List Nat)
deriving DecidableEq

/-- `NoNulError(Option<Vec<u16>>)` from `src/error.rs`. -/
structure NoNulError where
  buf : Option (List Nat)
deriving DecidableEq

/-- `error::nul` constructor. -/
def error.nul (p : Nat) (s : Option (List Nat)) : NulError := ⟨p, s⟩

/-- `error::no_nul` constructor. -/
def error.no_nul (s : Option (List Nat)) : NoNulError := ⟨s⟩

/-- `NulError::nul_position`. -/
def NulError.nul_position (e : NulError) : Nat := e.pos

/-- `NulError::into_vec`. -/
def NulError.into_vec (e : NulError) : Option (List Nat) := e.buf

/-- `NoNulError::into_vec`. -/
def NoNulError.into_vec (e : NoNulError) : Option (List Nat) := e.buf

/-- Borrowed view `WCStr` (`src/wcstr.rs`): its `inner` is the full stored
region, trailing nul included. -/
structure WCStr where
  inner : List Nat
deriving DecidableEq

/-- Owned buffer `WCString` (`src/wcstring.rs`): `inner` is the backing
`Vec<u16>`, trailing nul included. -/
structure WCString where
  inner : List Nat
deriving DecidableEq

/-- `WCStr::len`: stored length minus one (`self.inner.len() - 1`). -/
def WCStr.len (s : WCStr) : Nat := s.inner.length - 1

/-- `WCStr::to_slice`: the code units without the nul terminator
(`&self.inner[..self.len()]`). -/
def WCStr.to_slice (s : WCStr) : List Nat := s.inner.take s.len

/-- `WCStr::to_slice_with_nul`: the full stored region. -/
def WCStr.to_slice_with_nul (s : WCStr) : List Nat := s.inner

/-- `WCStr::from_slice_with_nul`: scan for the first nul; view covers
`[0, first_nul]` inclusive, or `NoNulError(None)` when absent. -/
def WCStr.from_slice_with_nul (slice : List Nat) : Except NoNulError WCStr :=
  match position (· == 0) slice with
  | none => .error (error.no_nul none)
  | some i => .ok ⟨slice.take (i + 1)⟩

/-- `WCStr::starts_with`: false when the candidate is longer, else a
pairwise comparison of the nul-free slices via `zip`/`all`. -/
def WCStr.starts_with (self s : WCStr) : Bool :=
  if s.len > self.len then false
  else (self.to_slice.zip s.to_slice).all fun p => p.1 == p.2

/-- `ToOwned for WCStr`: copy the whole stored region into an owned buffer
(`from_vec_with_nul_unchecked(self.inner.to_owned())`). -/
def WCStr.to_owned (s : WCStr) : WCString := ⟨s.inner⟩

/-- `WCString::new()`: just the trailing nul. -/
def WCString.new : WCString := ⟨[0]⟩

/-- `WCString::from_vec`: reject at the first nul (returning the vector in
the error), else append a trailing nul (`from_vec_unchecked`). -/
def WCString.from_vec (v : List Nat) : Except NulError WCString :=
  match position (· == 0) v with
  | some i => .error (error.nul i (some v))
  | none => .ok ⟨v ++ [0]⟩

/-- `WCString::from_vec_with_nul`: truncate just past the first nul, or
fail with `NoNulError(Some v)` when no nul exists. -/
def WCString.from_vec_with_nul (v : List Nat) : Except NoNulError WCString :=
  match position (· == 0) v with
  | none => .error (error.no_nul (some v))
  | some i => .ok ⟨v.take (i + 1)⟩

/-- `WCString::into_vec`: pop the trailing nul and return the rest. -/
def WCString.into_vec (s : WCString) : List Nat := s.inner.dropLast

/-- `WCString::into_vec_with_nul`: the full backing vector. -/
def WCString.into_vec_with_nul (s : WCString) : List Nat := s.inner

/-- `WCString::len`, via `Deref` to `WCStr`. -/
def WCString.len (s : WCString) : Nat := s.inner.length - 1

/-- `WCString::as_slice`: units without the nul terminator. -/
def WCString.as_slice (s : WCString) : List Nat := s.inner.take s.len

/-- `WCString::as_slice_with_nul`. -/
def WCString.as_slice_with_nul (s : WCString) : List Nat := s.inner

/-- `Deref`/`as_wcstr`: the borrowed view over the same storage
(`transmute(self.as_slice_with_nul())`). -/
def WCString.as_wcstr (s : WCString) : WCStr := ⟨s.inner⟩

/-- `WCString::push`: pop the trailing nul, extend with the view's full
stored region (its own nul included). -/
def WCString.push (self : WCString) (s : WCStr) : WCString :=
  ⟨self.inner.dropLast ++ s.to_slice_with_nul⟩

/-- `WCString::push_slice`: scan first; on a nul fail with
`NulError(i, None)` leaving the buffer untouched; else pop the nul, extend,
re-push the nul. -/
def WCString.push_slice (self : WCString) (s : List Nat) :
    WCString × Except NulError Unit :=
  match position (· == 0) s with
  | some i => (self, .error (error.nul i none))
  | none => (⟨self.inner.dropLast ++ s ++ [0]⟩, .ok ())

/-- `WCString::push_slice_with_nul`: fail (buffer untouched) when the slice
has no nul; else pop the nul and extend with `s[..i+1]`. -/
def WCString.push_slice_with_nul (self : WCString) (s : List Nat) :
    WCString × Except NoNulError Unit :=
  match position (· == 0) s with
  | none => (self, .error (error.no_nul none))
  | some i => (⟨self.inner.dropLast ++ s.take (i + 1)⟩, .ok ())

/-- `WCString::push_str`, with `s` the `encode_wide()` output of the text.
The code pops the nul, extends with `take_while(w != 0)` (the `not_nuled`
flag records whether a nul stopped the iteration, i.e. `¬ s.all (· != 0)`),
then on success pushes the nul back, and on failure truncates to the
pre-call length, re-pushes the nul, and reports
`pos = extended_len - pre_call_len`. -/
def WCString.push_str (self : WCString) (s : List Nat) :
    WCString × Except NulError Unit :=
  let popped := self.inner.dropLast
  let len := popped.length
  let extended := popped ++ s.takeWhile (· != 0)
  if s.all (· != 0) then
    (⟨extended ++ [0]⟩, .ok ())
  else
    (⟨extended.take len ++ [0]⟩, .error (error.nul (extended.length - len) none))

/-- `WCString::push_str_with_nul`: symmetric to `push_str` — keep the
partial append (plus a pushed nul) when a nul stopped the encoding, roll
back and fail with `NoNulError(None)` when none was found. -/
def WCString.push_str_with_nul (self : WCString) (s : List Nat) :
    WCString × Except NoNulError Unit :=
  let popped := self.inner.dropLast
  let len := popped.length
  let extended := popped ++ s.takeWhile (· != 0)
  if s.all (· != 0) then
    (⟨extended.take len ++ [0]⟩, .error (error.no_nul none))
  else
    (⟨extended ++ [0]⟩, .ok ())

/-- Iterator state from `src/split.rs`: the consumed backing buffer and the
cursor. -/
structure Split where
  buffer : List Nat
  offset : Nat
deriving DecidableEq

/-- `split::new`: overwrite the buffer's last element with the delimiter
(`*buffer.last_mut().unwrap() = delim`; buffers coming from a `WCString`
are never empty, so the `unwrap` cannot fail). -/
def split.new (buffer : List Nat) (delim : Nat) : Split :=
  ⟨buffer.set (buffer.length - 1) delim, 0⟩

/-- `WCString::split`: consume the backing vector. -/
def WCString.split (self : WCString) (delimiter : Nat) : Split :=
  split.new self.inner delimiter

/-- One step of `Iterator::next` for `&mut Split`.  When the cursor is
inside the buffer: re-read the delimiter from the buffer's last slot, scan
from the start for its first occurrence (`position(..).unwrap()` — the
last element equals the delimiter, so the scan always succeeds; the `getD`
default is never taken), overwrite it with nul, yield the slice
`buffer[offset .. pos+1]` of the mutated buffer, and advance the cursor.
Past the end: yield nothing and leave the state unchanged. -/
def Split.next (self : Split) : Option WCStr × Split :=
  if self.offset < self.buffer.length then
    let delim := self.buffer.getLast?.getD 0
    let pos := (position (· == delim) self.buffer).getD self.buffer.length
    let buffer := self.buffer.set pos 0
    let offset := pos + 1
    let result := (buffer.drop self.offset).take (offset - self.offset)
    (some ⟨result⟩, ⟨buffer, offset⟩)
  else
    (none, self)

/-- Collect up to `fuel` yielded segments by repeatedly calling `next`. -/
def Split.collect : Nat → Split → List WCStr
  | 0, _ => []
  | fuel + 1, sp =>
    match sp.next with
    | (some w, sp') => w :: Split.collect fuel sp'
    | (none, _) => []

/-- The iterator state after `n` calls to `next`. -/
def Split.stateAfter : Split → Nat → Split
  | sp, 0 => sp
  | sp, n + 1 => (Split.stateAfter sp n).next.2

/-- The rendering decisions `Debug for WCStr` makes for one code unit:
either the decoded character (then printed through `escape_default`, whose
output is the Rust standard library's standard escaping) or a literal
`\u{XXXX}` hex escape. -/
inductive Rendered where
  | decoded (c : Nat)
  | hexEscape (w : Nat)
deriving DecidableEq

/-- Rust's `char::from_u32`: `None` exactly on surrogates and values above
`0x10FFFF`. -/
def char_from_u32 (v : Nat) : Option Nat :=
  if 0xD800 ≤ v ∧ v ≤ 0xDFFF then none
  else if 0x10FFFF < v then none
  else some v

/-- The per-unit branch of `Debug for WCStr`: units outside the surrogate
gap go through `char::from_u32(..).unwrap()` (a `none` result models the
`unwrap` panic); units inside it are written as hex escapes. -/
def fmtUnit (w : Nat) : Option Rendered :=
  if w < 0xD800 ∨ 0xE000 ≤ w then (char_from_u32 w).map Rendered.decoded
  else some (.hexEscape w)

/-- The `for` loop of `Debug for WCStr` over the nul-free slice, with panic
propagation. -/
def fmtUnits : List Nat → Option (List Rendered)
  | [] => some []
  | w :: ws =>
    match fmtUnit w, fmtUnits ws with
    | some r, some rs => some (r :: rs)
    | _, _ => none

/-- `Debug for WCStr`: render every unit of `to_slice()`. -/
def WCStr.fmtDebug (s : WCStr) : Option (List Rendered) :=
  fmtUnits s.to_slice

/-- `Debug for WCString` (`src/wcstring.rs`): the impl body is
`std::fmt::Debug::fmt(&self, formatter)` with `self : &WCString`, so the
argument is a `&&WCString` and `Self` unifies with `&WCString`, selecting
the blanket `Debug for &T` impl — which calls straight back into this same
impl.  No deref coercion to `&WCStr` is attempted, the recursion makes no
progress, and the process aborts by stack overflow without writing any
output.  Modelled with an explicit call-depth budget: each self-call
consumes one budget unit, and an exhausted budget (the overflow) renders
nothing. -/
def WCString.fmtDebugSteps (s : WCString) : Nat → Option (List Rendered)
  | 0 => none
  | depth + 1 => WCString.fmtDebugSteps s depth

/-- The invariant of a backing buffer: non-empty, last unit is nul, no
earlier unit is nul. -/
def ValidBuf (l : List Nat) : Prop :=
  l ≠ [] ∧ l.getLast? = some 0 ∧ ∀ w ∈ l.dropLast, w ≠ 0

instance (l : List Nat) : Decidable (ValidBuf l) := by
  unfold ValidBuf; infer_instance

/-- The owned buffer's invariant. -/
def WCString.Valid (s : WCString) : Prop := ValidBuf s.inner

instance (s : WCString) : Decidable s.Valid := by
  unfold WCString.Valid; infer_instance

/-- The borrowed view's invariant. -/
def WCStr.Valid (s : WCStr) : Prop := ValidBuf s.inner

instance (s : WCStr) : Decidable s.Valid := by
  unfold WCStr.Valid; infer_instance

/-- The scan finds nothing exactly when no element satisfies the predicate. -/
theorem position_eq_none_iff {p : Nat → Bool} {l : List Nat} :
    position p l = none ↔ ∀ x ∈ l, p x = false := by
  induction l with
  | nil => simp [position]
  | cons x xs ih =>
    by_cases h : p x <;> simp [position, h, ih]

/-- If the first zero of `l` sits at index `i`, the scan reports `i`. -/
theorem position_zero_eq_some {l : List Nat} {i : Nat}
    (h0 : l.get? i = some 0) (hfirst : ∀ j < i, l.get? j ≠ some 0) :
    position (· == 0) l = some i := by
  induction l generalizing i with
  | nil => simp at h0
  | cons x xs ih =>
    cases i with
    | zero =>
      simp only [List.get?, Option.some.injEq] at h0
      simp [position, h0]
    | succ j =>
      have hx : x ≠ 0 := by
        have := hfirst 0 (Nat.succ_pos j)
        simpa using this
      have hrec : position (· == 0) xs = some j := by
        refine ih (by simpa using h0) ?_
        intro k hk
        have := hfirst (k + 1) (Nat.succ_lt_succ hk)
        simpa using this
      simp [position, hx, hrec]

/-- What a successful scan for zero tells us about `l`. -/
theorem position_zero_spec {l : List Nat} {i : Nat}
    (h : position (· == 0) l = some i) :
    l.get? i = some 0 ∧ ∀ j < i, l.get? j ≠ some 0 := by
  induction l generalizing i with
  | nil => simp [position] at h
  | cons x xs ih =>
    by_cases hx : x = 0
    · simp [position, hx] at h
      subst h
      exact ⟨by simp [hx], by simp⟩
    · simp [position, hx] at h
      obtain ⟨j, hj, rfl⟩ := h
      obtain ⟨h1, h2⟩ := ih hj
      refine ⟨by simpa using h1, ?_⟩
      intro k hk
      cases k with
      | zero => simpa using hx
      | succ k =>
        have := h2 k (Nat.lt_of_succ_lt_succ hk)
        simpa using this

/-- Truncating just past the first zero appends exactly one trailing nul to
a zero-free prefix. -/
theorem position_zero_take {l : List Nat} {i : Nat}
    (h : position (· == 0) l = some i) :
    l.take (i + 1) = l.take i ++ [0] ∧ ∀ w ∈ l.take i, w ≠ 0 := by
  induction l generalizing i with
  | nil => simp [position] at h
  | cons x xs ih =>
    by_cases hx : x = 0
    · simp [position, hx] at h
      subst h
      simp [hx]
    · simp [position, hx] at h
      obtain ⟨j, hj, rfl⟩ := h
      obtain ⟨h1, h2⟩ := ih hj
      refine ⟨by simp [h1], ?_⟩
      intro w hw
      rcases List.mem_cons.mp (by simpa using hw) with rfl | hw'
      · exact hx
      · exact h2 w hw'

/-- When the scan finds a zero at `i`, `take_while(w != 0)` keeps exactly
the first `i` units and `all(w != 0)` is false. -/
theorem takeWhile_ne_zero_of_position {l : List Nat} {i : Nat}
    (h : position (· == 0) l = some i) :
    l.takeWhile (· != 0) = l.take i ∧ l.all (· != 0) = false := by
  induction l generalizing i with
  | nil => simp [position] at h
  | cons x xs ih =>
    by_cases hx : x = 0
    · simp [position, hx] at h
      subst h
      simp [List.takeWhile, hx]
    · have hx' : (x != 0) = true := by simp [hx]
      simp [position, hx] at h
      obtain ⟨j, hj, rfl⟩ := h
      obtain ⟨h1, h2⟩ := ih hj
      simp [List.takeWhile, hx', h1, h2]

/-- A zero-free run closed with a single nul satisfies the buffer
invariant. -/
theorem validBuf_concat {a : List Nat} (h : ∀ w ∈ a, w ≠ 0) :
    ValidBuf (a ++ [0]) := by
  refine ⟨by simp, ?_, ?_⟩
  · exact List.getLast?_concat a
  · simpa [List.dropLast_concat] using h

/-- A valid buffer is its nul-free prefix plus the trailing nul. -/
theorem ValidBuf.decomp {l : List Nat} (h : ValidBuf l) :
    l.dropLast ++ [0] = l :=
  List.dropLast_append_getLast? 0 h.2.1

/-- Claim C1: every owned buffer reachable through the safe public
constructors satisfies the invariant (storage non-empty, last unit 0, no
earlier unit 0), and every public append operation (`push`, `push_slice`,
`push_slice_with_nul`, `push_str`, `push_str_with_nul`) preserves it, on
both the success and the failure path: starting from a valid buffer (the
invariant immediately before), the buffer state after the call is valid
whichever branch was taken. -/
theorem public_ops_preserve_invariant (b : WCString) (v : WCStr)
    (s t : List Nat) (hb : b.Valid) (hv : v.Valid) :
    WCString.new.Valid ∧
    (∀ r, WCString.from_vec s = .ok r → r.Valid) ∧
    (∀ r, WCString.from_vec_with_nul s = .ok r → r.Valid) ∧
    (b.push v).Valid ∧
    (b.push_slice s).1.Valid ∧
    (b.push_slice_with_nul s).1.Valid ∧
    (b.push_str t).1.Valid ∧
    (b.push_str_with_nul t).1.Valid := by
  have hbd : ∀ w ∈ b.inner.dropLast, w ≠ 0 := hb.2.2
  refine ⟨by decide, ?_, ?_, ?_, ?_, ?_, ?_, ?_⟩
  · intro r h
    cases hp : position (· == 0) s with
    | some i => simp [WCString.from_vec, hp] at h
    | none =>
      simp only [WCString.from_vec, hp, Except.ok.injEq] at h
      subst h
      exact validBuf_concat fun x hx => by
        have := position_eq_none_iff.mp hp x hx
        simpa using this
  · intro r h
    cases hp : position (· == 0) s with
    | none => simp [WCString.from_vec_with_nul, hp] at h
    | some i =>
      simp only [WCString.from_vec_with_nul, hp, Except.ok.injEq] at h
      obtain ⟨htake, hmem⟩ := position_zero_take hp
      subst h
      show ValidBuf (s.take (i + 1))
      rw [htake]
      exact validBuf_concat hmem
  · show ValidBuf (b.inner.dropLast ++ v.inner)
    have hsplit : b.inner.dropLast ++ v.inner
        = (b.inner.dropLast ++ v.inner.dropLast) ++ [0] := by
      rw [List.append_assoc, ValidBuf.decomp hv]
    rw [hsplit]
    refine validBuf_concat fun w hw => ?_
    rcases List.mem_append.mp hw with h | h
    · exact hbd w h
    · exact hv.2.2 w h
  · cases hp : position (· == 0) s with
    | some i => simpa [WCString.push_slice, hp] using hb
    | none =>
      simp only [WCString.push_slice, hp]
      show ValidBuf (b.inner.dropLast ++ s ++ [0])
      refine validBuf_concat fun w hw => ?_
      rcases List.mem_append.mp hw with h | h
      · exact hbd w h
      · have := position_eq_none_iff.mp hp w h
        simpa using this
  · cases hp : position (· == 0) s with
    | none => simpa [WCString.push_slice_with_nul, hp] using hb
    | some i =>
      obtain ⟨htake, hmem⟩ := position_zero_take hp
      simp only [WCString.push_slice_with_nul, hp]
      show ValidBuf (b.inner.dropLast ++ s.take (i + 1))
      rw [htake, ← List.append_assoc]
      refine validBuf_concat fun w hw => ?_
      rcases List.mem_append.mp hw with h | h
      · exact hbd w h
      · exact hmem w h
  · by_cases hc : t.all (· != 0) = true
    · simp only [WCString.push_str, hc, if_true]
      show ValidBuf (b.inner.dropLast ++ t.takeWhile (· != 0) ++ [0])
      refine validBuf_concat fun w hw => ?_
      rcases List.mem_append.mp hw with h | h
      · exact hbd w h
      · have := List.mem_takeWhile_imp h
        simpa using this
    · rw [Bool.not_eq_true] at hc
      simp only [WCString.push_str, hc, Bool.false_eq_true, if_false]
      show ValidBuf
        ((b.inner.dropLast ++ t.takeWhile (· != 0)).take b.inner.dropLast.length
          ++ [0])
      rw [List.take_left]
      exact validBuf_concat hbd
  · by_cases hc : t.all (· != 0) = true
    · simp only [WCString.push_str_with_nul, hc, if_true]
      show ValidBuf
        ((b.inner.dropLast ++ t.takeWhile (· != 0)).take b.inner.dropLast.length
          ++ [0])
      rw [List.take_left]
      exact validBuf_concat hbd
    · rw [Bool.not_eq_true] at hc
      simp only [WCString.push_str_with_nul, hc, Bool.false_eq_true, if_false]
      show ValidBuf (b.inner.dropLast ++ t.takeWhile (· != 0) ++ [0])
      refine validBuf_concat fun w hw => ?_
      rcases List.mem_append.mp hw with h | h
      · exact hbd w h
      · have := List.mem_takeWhile_imp h
        simpa using this

/-- Witness for C1: the invariant theorem instantiated at concrete inputs
(pushing text with an interior nul into the empty buffer keeps it valid). -/
theorem public_ops_preserve_invariant_witness :
    ((⟨[0]⟩ : WCString).push_str [7, 0, 9]).1.Valid :=
  (public_ops_preserve_invariant ⟨[0]⟩ ⟨[116, 0]⟩ [5] [7, 0, 9]
    (by decide) (by decide)).2.2.2.2.2.2.1

/-- Claim C2: appending text whose 16-bit encoding contains a zero through
`push_str` fails, leaves the buffer exactly as it was before the call
(trailing nul included), and the interior-nul error carries the offset of
the zero within the newly-appended encoded region (the index of the first
zero in the encoding). -/
theorem push_str_rollback_on_nul (b : WCString) (s : List Nat) (i : Nat)
    (hb : b.Valid) (h0 : s.get? i = some 0)
    (hfirst : ∀ j < i, s.get? j ≠ some 0) :
    (b.push_str s).1 = b ∧ (b.push_str s).2 = .error (error.nul i none) := by
  have hp := position_zero_eq_some h0 hfirst
  obtain ⟨htw, hall⟩ := takeWhile_ne_zero_of_position hp
  have hi : i < s.length := (List.get?_eq_some.mp h0).1
  have hlen : (s.takeWhile (· != 0)).length = i := by
    rw [htw, List.length_take]
    omega
  have hback :
      (b.inner.dropLast ++ s.takeWhile (· != 0)).take b.inner.dropLast.length
        ++ [0] = b.inner := by
    rw [List.take_left, ValidBuf.decomp hb]
  have hpos :
      (b.inner.dropLast ++ s.takeWhile (· != 0)).length
        - b.inner.dropLast.length = i := by
    simp [List.length_append, hlen]
  constructor
  · simp only [WCString.push_str, hall, Bool.false_eq_true, if_false]
    rw [hback]
  · simp only [WCString.push_str, hall, Bool.false_eq_true, if_false, hpos]

/-- Witness for C2: pushing the encoding of `"abc\0def"` into the empty
buffer fails with offset 3 and leaves the buffer unchanged. -/
theorem push_str_rollback_on_nul_witness :
    (WCString.new.push_str [97, 98, 99, 0, 100, 101, 102]).1 = WCString.new ∧
    (WCString.new.push_str [97, 98, 99, 0, 100, 101, 102]).2
      = .error (error.nul 3 none) :=
  push_str_rollback_on_nul WCString.new [97, 98, 99, 0, 100, 101, 102] 3
    (by decide) (by decide) (by decide)

/-- Claim C4: `from_vec` succeeds on every nul-free sequence, and
`into_vec` on the result returns exactly the original sequence. -/
theorem from_vec_into_vec_roundtrip (s : List Nat) (h : ∀ w ∈ s, w ≠ 0) :
    ∃ b, WCString.from_vec s = .ok b ∧ b.into_vec = s := by
  have hp : position (· == 0) s = none :=
    position_eq_none_iff.mpr fun x hx => by simpa using h x hx
  refine ⟨⟨s ++ [0]⟩, by simp [WCString.from_vec, hp], ?_⟩
  simp [WCString.into_vec, List.dropLast_concat]

/-- Witness for C4: the round trip on a concrete nul-free sequence. -/
theorem from_vec_into_vec_roundtrip_witness :
    ∃ b, WCString.from_vec [97, 98, 99] = .ok b ∧ b.into_vec = [97, 98, 99] :=
  from_vec_into_vec_roundtrip [97, 98, 99] (by decide)

/-- Claim C5: when the first zero of `s` sits at position `i`, `from_vec s`
fails with an interior-nul error whose `nul_position` is `i` and whose
`into_vec` recovers `s` unchanged. -/
theorem from_vec_first_nul_error (s : List Nat) (i : Nat)
    (h0 : s.get? i = some 0) (hfirst : ∀ j < i, s.get? j ≠ some 0) :
    ∃ e : NulError, WCString.from_vec s = .error e ∧
      e.nul_position = i ∧ e.into_vec = some s := by
  have hp := position_zero_eq_some h0 hfirst
  exact ⟨error.nul i (some s), by simp [WCString.from_vec, hp], rfl, rfl⟩

/-- Witness for C5: `from_vec [97, 0, 98]` fails at position 1 and recovers
the whole input. -/
theorem from_vec_first_nul_error_witness :
    ∃ e : NulError, WCString.from_vec [97, 0, 98] = .error e ∧
      e.nul_position = 1 ∧ e.into_vec = some [97, 0, 98] :=
  from_vec_first_nul_error [97, 0, 98] 1 (by decide) (by decide)

/-- Claim C6: with a first zero at position `i`, `from_vec_with_nul`
succeeds, the result has `len() = i`, and its storage is the input cut just
past the first zero (everything after it discarded); with no zero at all it
fails with a missing-nul error recovering the original sequence. -/
theorem from_vec_with_nul_spec (s : List Nat) :
    (∀ i, s.get? i = some 0 → (∀ j < i, s.get? j ≠ some 0) →
      ∃ b, WCString.from_vec_with_nul s = .ok b ∧ b.len = i ∧
        b.into_vec_with_nul = s.take (i + 1)) ∧
    ((∀ w ∈ s, w ≠ 0) →
      ∃ e : NoNulError, WCString.from_vec_with_nul s = .error e ∧
        e.into_vec = some s) := by
  constructor
  · intro i h0 hfirst
    have hp := position_zero_eq_some h0 hfirst
    have hi : i < s.length := (List.get?_eq_some.mp h0).1
    refine ⟨⟨s.take (i + 1)⟩, by simp [WCString.from_vec_with_nul, hp], ?_, rfl⟩
    show (s.take (i + 1)).length - 1 = i
    rw [List.length_take]
    omega
  · intro h
    have hp : position (· == 0) s = none :=
      position_eq_none_iff.mpr fun x hx => by simpa using h x hx
    exact ⟨error.no_nul (some s), by simp [WCString.from_vec_with_nul, hp], rfl⟩

/-- Witness for C6: both branches at concrete inputs. -/
theorem from_vec_with_nul_spec_witness :
    (∃ b, WCString.from_vec_with_nul [97, 0, 98] = .ok b ∧ b.len = 1 ∧
      b.into_vec_with_nul = [97, 0, 98].take 2) ∧
    (∃ e : NoNulError, WCString.from_vec_with_nul [97, 98] = .error e ∧
      e.into_vec = some [97, 98]) :=
  ⟨(from_vec_with_nul_spec [97, 0, 98]).1 1 (by decide) (by decide),
   (from_vec_with_nul_spec [97, 98]).2 (by decide)⟩

/-- Claim C7: copying a valid borrowed view into an owned buffer with
`to_owned` and taking the owned buffer's view again (the `Deref`/`as_wcstr`
path) gives a view whose full stored region, trailing nul included, equals
the original view's stored region. -/
theorem to_owned_roundtrip (v : WCStr) (_hv : v.Valid) :
    v.to_owned.as_wcstr.to_slice_with_nul = v.to_slice_with_nul := rfl

/-- Witness for C7: the round trip on a concrete view. -/
theorem to_owned_roundtrip_witness :
    (⟨[116, 0]⟩ : WCStr).to_owned.as_wcstr.to_slice_with_nul
      = (⟨[116, 0]⟩ : WCStr).to_slice_with_nul :=
  to_owned_roundtrip ⟨[116, 0]⟩ (by decide)

/-- Claim C10: splitting the empty owned buffer (storage `[0]`) on any
delimiter yields exactly one segment — the empty view, of length 0 — and
the iterator yields nothing on every later call; it never yields zero
segments. -/
theorem split_empty_one_segment (d : Nat) :
    (WCString.new.split d).next = (some ⟨[0]⟩, ⟨[0], 1⟩) ∧
    WCStr.len ⟨[0]⟩ = 0 ∧
    ∀ k, ((WCString.new.split d).stateAfter (1 + k)).next.1 = none := by
  have hstep : (WCString.new.split d).next = (some ⟨[0]⟩, ⟨[0], 1⟩) := by
    simp [WCString.new, WCString.split, split.new, Split.next, position]
  have hfix : ∀ k, (WCString.new.split d).stateAfter (1 + k) = ⟨[0], 1⟩ := by
    intro k
    induction k with
    | zero =>
      show ((WCString.new.split d).stateAfter 0).next.2 = _
      rw [Split.stateAfter, hstep]
    | succ k ih =>
      show ((WCString.new.split d).stateAfter (1 + k)).next.2 = _
      rw [ih]
      rfl
  refine ⟨hstep, rfl, fun k => ?_⟩
  rw [hfix k]
  rfl

/-- Claim C3: splitting the owned buffer built from the nul-free encoding
of the text a;b;c;d;e on the delimiter 59 yields exactly five
segments, each a nul-terminated view of length 1, in left-to-right order
(97, 98, 99, 100, 101), and every call after the fifth yields nothing.
Each advance of the embedded iterator is the code's single forward scan
from the start of the backing buffer for the first remaining delimiter
occurrence, which it rewrites to nul before yielding the view that ends at
that nul. -/
theorem split_abcde_five_segments :
    WCString.from_vec [97, 59, 98, 59, 99, 59, 100, 59, 101]
      = .ok ⟨[97, 59, 98, 59, 99, 59, 100, 59, 101, 0]⟩ ∧
    Split.collect 6
        ((⟨[97, 59, 98, 59, 99, 59, 100, 59, 101, 0]⟩ : WCString).split 59)
      = [⟨[97, 0]⟩, ⟨[98, 0]⟩, ⟨[99, 0]⟩, ⟨[100, 0]⟩, ⟨[101, 0]⟩] ∧
    (Split.collect 6
        ((⟨[97, 59, 98, 59, 99, 59, 100, 59, 101, 0]⟩ : WCString).split 59)).map
        WCStr.len
      = [1, 1, 1, 1, 1] ∧
    ∀ k, (((⟨[97, 59, 98, 59, 99, 59, 100, 59, 101, 0]⟩ : WCString).split
        59).stateAfter (5 + k)).next.1 = none := by
  have hfix : ∀ k,
      ((⟨[97, 59, 98, 59, 99, 59, 100, 59, 101, 0]⟩ : WCString).split
        59).stateAfter (5 + k)
      = ⟨[97, 0, 98, 0, 99, 0, 100, 0, 101, 0], 10⟩ := by
    intro k
    induction k with
    | zero => rfl
    | succ k ih =>
      show (Split.stateAfter _ (5 + k)).next.2 = _
      rw [ih]
      rfl
  refine ⟨rfl, rfl, rfl, fun k => ?_⟩
  rw [hfix k]
  rfl

/-- Rendering the loop body of `Debug for WCStr` over any list of genuine
16-bit units never hits the `unwrap` panic, and chooses the hex escape
exactly on the surrogate range 0xD800–0xDFFF, decoding every other unit. -/
theorem fmtUnits_total_hex_on_surrogates (l : List Nat)
    (h : ∀ w ∈ l, w < 65536) :
    fmtUnits l = some (l.map fun w =>
      if 0xD800 ≤ w ∧ w ≤ 0xDFFF then Rendered.hexEscape w
      else Rendered.decoded w) := by
  induction l with
  | nil => rfl
  | cons x xs ih =>
    have hx : x < 65536 := h x (List.mem_cons_self x xs)
    have hxs := ih fun w hw => h w (List.mem_cons_of_mem x hw)
    by_cases hs : x < 0xD800 ∨ 0xE000 ≤ x
    · have h1 : fmtUnit x = some (Rendered.decoded x) := by
        simp only [fmtUnit, char_from_u32]
        rw [if_pos hs, if_neg (by omega), if_neg (by omega)]
        rfl
      have h2 : ¬ (0xD800 ≤ x ∧ x ≤ 0xDFFF) := by omega
      simp [fmtUnits, h1, hxs, h2]
    · have h1 : fmtUnit x = some (Rendered.hexEscape x) := by
        simp only [fmtUnit]
        rw [if_neg hs]
      have h2 : 0xD800 ≤ x ∧ x ≤ 0xDFFF := by omega
      simp [fmtUnits, h1, hxs, h2]

/-- Claim C8 (code bug): the claimed behaviour is exactly what the
borrowed view's `Debug` impl does — rendering the view holding the lone
surrogate 0xD800 yields the literal hex escape and attempts no character
decode — but the owned buffer's own `Debug` impl never produces that
rendering: it re-enters itself through the blanket reference impl, so the
Debug rendering of the owned buffer holding 0xD800 completes nothing at
every finite call depth, where the claim promises the hex escape for every
valid string. -/
theorem wcstring_debug_self_recursion :
    (∀ depth, WCString.fmtDebugSteps ⟨[0xD800, 0]⟩ depth = none) ∧
    (⟨[0xD800, 0]⟩ : WCStr).fmtDebug = some [Rendered.hexEscape 0xD800] := by
  refine ⟨fun depth => ?_, by decide⟩
  induction depth with
  | zero => rfl
  | succ n ih => exact ih

/-- The pairwise `zip`/`all` comparison succeeds exactly when the two lists
agree at every index both of them have. -/
theorem zip_all_eq_iff (a b : List Nat) :
    ((a.zip b).all fun p => p.1 == p.2) = true ↔
      ∀ j, j < min a.length b.length → a.get? j = b.get? j := by
  induction a generalizing b with
  | nil => simp
  | cons x xs ih =>
    cases b with
    | nil => simp
    | cons y ys =>
      simp only [List.zip_cons_cons, List.all_cons, Bool.and_eq_true,
        beq_iff_eq, List.length_cons]
      constructor
      · rintro ⟨h1, h2⟩ j hj
        cases j with
        | zero => simpa using h1
        | succ j =>
          have := (ih ys).mp h2 j (by omega)
          simpa using this
      · intro h
        refine ⟨by simpa using h 0 (by omega), (ih ys).mpr ?_⟩
        intro j hj
        have := h (j + 1) (by omega)
        simpa using this

/-- The nul-free slice of a view has exactly `len` units. -/
theorem to_slice_length (v : WCStr) : v.to_slice.length = v.len := by
  simp only [WCStr.to_slice, WCStr.len, List.length_take]
  omega

/-- Claim C9: `starts_with` returns false whenever the candidate prefix is
longer than the subject, and otherwise returns true exactly when the two
views agree on every code unit index below the candidate's length (the
trailing nuls excluded from the comparison). -/
theorem starts_with_spec (v p : WCStr) :
    (p.len > v.len → v.starts_with p = false) ∧
    (p.len ≤ v.len →
      (v.starts_with p = true ↔
        ∀ j < p.len, v.to_slice.get? j = p.to_slice.get? j)) := by
  constructor
  · intro h
    simp [WCStr.starts_with, h]
  · intro h
    rw [WCStr.starts_with, if_neg (by omega), zip_all_eq_iff,
      to_slice_length, to_slice_length, Nat.min_eq_right h]

/-- Witness for C9: the spec's three concrete examples, abcefg against
abc, efg, and abcefgh, via the prefix-test theorem. -/
theorem starts_with_spec_witness :
    (⟨[97, 98, 99, 101, 102, 103, 0]⟩ : WCStr).starts_with
      ⟨[97, 98, 99, 0]⟩ = true ∧
    (⟨[97, 98, 99, 101, 102, 103, 0]⟩ : WCStr).starts_with
      ⟨[101, 102, 103, 0]⟩ = false ∧
    (⟨[97, 98, 99, 101, 102, 103, 0]⟩ : WCStr).starts_with
      ⟨[97, 98, 99, 101, 102, 103, 104, 0]⟩ = false := by
  refine ⟨?_, ?_, ?_⟩
  · exact ((starts_with_spec ⟨[97, 98, 99, 101, 102, 103, 0]⟩
      ⟨[97, 98, 99, 0]⟩).2 (by decide)).mpr (by decide)
  · have h := (starts_with_spec ⟨[97, 98, 99, 101, 102, 103, 0]⟩
      ⟨[101, 102, 103, 0]⟩).2 (by decide)
    rw [Bool.eq_false_iff]
    intro hc
    exact absurd (h.mp hc) (by decide)
  · exact (starts_with_spec ⟨[97, 98, 99, 101, 102, 103, 0]⟩
      ⟨[97, 98, 99, 101, 102, 103, 104, 0]⟩).1 (by decide)

end Wcstr
